import Mathlib

/-!
Verification of the on-demand directory mirroring service (`main.go`).

The service mirrors remote directory subtrees to a local data directory. Its
core pieces, embedded shallowly below:

* a mutex-guarded registry `syncStorage` mapping path → active `Sync` job,
  with an overlap scan in `sync`/`remove` (no two registered jobs may touch
  overlapping subtrees);
* `buildRemoteTree`, which turns a newline stream of remote directory paths
  into a parent-linked arena of `Dir` nodes and then propagates
  `Synced = false` from every node missing locally up its ancestor chain;
* `startSync`, the per-job supervisor: it creates the destination directory,
  spawns the transfer process, parses its whitespace-delimited progress
  tokens, runs the cancellation watcher, and always deletes the job from the
  registry when it ends;
* the HTTP-facing operations `StartSync`, `Remove`, `ListSyncs`, `CancelSync`.

Go strings are modelled as Lean `String`s and compared through explicit
character-list functions (Go compares strings byte-wise; on valid UTF-8 the
byte order and the code-point order coincide).  Go's 64-bit `uint` is
modelled as `Nat` with explicit reduction modulo `2 ^ 64` at every
conversion from a signed value.  External effects (the filesystem walk, the
ssh listing process, rsync, timers) enter as explicit data: the listing
stream is a `List String`, filesystem failures are `Bool` parameters, and
the watcher produces a trace of the actions it performs.
-/

/- ## Go string primitives (byte/character level) -/

/-- Go `strings.HasPrefix(s, pre)` on the character lists: `s` starts with `pre`. -/
def listStartsWith : List Char → List Char → Bool
  | _, [] => true
  | [], _ :: _ => false
  | c :: cs, p :: ps => c == p && listStartsWith cs ps

/-- Go `strings.HasPrefix`. -/
def strStartsWith (s pre : String) : Bool :=
  listStartsWith s.toList pre.toList

/-- Go `strings.HasSuffix`. -/
def strEndsWith (s suf : String) : Bool :=
  listStartsWith s.toList.reverse suf.toList.reverse

/-- Go `strings.TrimSuffix(s, suf)`: drop `suf` when it is a suffix, else return `s`. -/
def trimSuffixStr (s suf : String) : String :=
  if strEndsWith s suf then
    String.mk (s.toList.take (s.toList.length - suf.toList.length))
  else s

/-- Go `strings.Contains(s, string(c))` for a one-character needle. -/
def strContainsChar (s : String) (c : Char) : Bool :=
  s.toList.contains c

/-- Go `strings.ReplaceAll(s, ",", "")`: delete every comma. -/
def removeCommas (s : String) : String :=
  String.mk (s.toList.filter (fun c => !(c == ',')))

/-- Go byte-wise `<` on strings, on the character lists (UTF-8 byte order
agrees with code-point order). -/
def listLtChars : List Char → List Char → Bool
  | [], [] => false
  | [], _ :: _ => true
  | _ :: _, [] => false
  | a :: as, b :: bs => if a == b then listLtChars as bs else decide (a.toNat < b.toNat)

/-- Go `a < b` on strings. -/
def strLtG (a b : String) : Bool :=
  listLtChars a.toList b.toList

/- ## Go integer parsing and conversion -/

/-- Decimal digit accumulation; `none` as soon as a non-digit appears
(Go `strconv.ParseInt` base-10 digit loop). -/
def digitsToNatAux (acc : Nat) : List Char → Option Nat
  | [] => some acc
  | c :: cs =>
    if c.isDigit then digitsToNatAux (acc * 10 + (c.toNat - '0'.toNat)) cs else none

/-- Parse a non-empty all-digit string to a `Nat`. -/
def digitsToNat : List Char → Option Nat
  | [] => none
  | cs => digitsToNatAux 0 cs

/-- Go `strconv.Atoi` (= `ParseInt(s, 10, 0)` with 64-bit `int`): optional
sign, then a non-empty run of decimal digits, value within the `int64`
range; any violation (including range overflow) is an error, modelled as
`none`. -/
def goAtoi (s : String) : Option Int :=
  match s.toList with
  | '+' :: rest =>
    (digitsToNat rest).bind fun n => if n ≤ 2 ^ 63 - 1 then some (Int.ofNat n) else none
  | '-' :: rest =>
    (digitsToNat rest).bind fun n => if n ≤ 2 ^ 63 then some (-(Int.ofNat n : Int)) else none
  | cs =>
    (digitsToNat cs).bind fun n => if n ≤ 2 ^ 63 - 1 then some (Int.ofNat n) else none

/-- Go `uint(v)` for a 64-bit signed `v`: two's-complement reinterpretation,
i.e. reduction modulo `2 ^ 64`. -/
def goUint (v : Int) : Nat :=
  (v % (2 ^ 64 : Int)).toNat

/- ## Go `path/filepath` lexical functions (unix rules) -/

/-- Split a character list on `/`, keeping empty components
(the separator structure of the path). -/
def splitSlashAux (cur : List Char) : List Char → List (List Char)
  | [] => [cur.reverse]
  | c :: cs =>
    if c == '/' then cur.reverse :: splitSlashAux [] cs
    else splitSlashAux (c :: cur) cs

/-- The `/`-separated components of a path (empty components kept). -/
def pathComponents (s : String) : List String :=
  (splitSlashAux [] s.toList).map String.mk

/-- Join components with `/`. -/
def joinSlash : List String → String
  | [] => ""
  | [c] => c
  | c :: cs => c ++ "/" ++ joinSlash cs

/-- The component stack of `filepath.Clean`: drop empty and `.` components,
let `..` pop the previous component (kept literally at the front of a
relative path, dropped at the root of an absolute one).  `acc` is the
processed stack, most recent first. -/
def cleanRev (rooted : Bool) : List String → List String → List String
  | acc, [] => acc
  | acc, c :: cs =>
    if c = "" ∨ c = "." then cleanRev rooted acc cs
    else if c = ".." then
      match acc with
      | [] => if rooted then cleanRev rooted [] cs else cleanRev rooted [".."] cs
      | a :: as =>
        if a = ".." then cleanRev rooted (".." :: a :: as) cs else cleanRev rooted as cs
    else cleanRev rooted (c :: acc) cs

/-- Go `filepath.Clean` (unix separator). -/
def goClean (s : String) : String :=
  if s = "" then "."
  else
    let rooted := strStartsWith s "/"
    let comps := (cleanRev rooted [] (pathComponents s)).reverse
    if rooted then
      if comps = [] then "/" else "/" ++ joinSlash comps
    else
      if comps = [] then "." else joinSlash comps

/-- Go `filepath.Dir`: everything up to and including the last separator,
then `Clean` (and `.` when there is no separator). -/
def goDir (s : String) : String :=
  let kept := ((s.toList.reverse.dropWhile (fun c => !(c == '/'))).reverse)
  goClean (String.mk kept)

/-- Go `filepath.Base`: strip trailing separators, then the part after the
last separator (`.` for the empty path, `/` when the path is all separators). -/
def goBase (s : String) : String :=
  if s = "" then "."
  else
    let r := s.toList.reverse.dropWhile (fun c => c == '/')
    let name := r.takeWhile (fun c => !(c == '/'))
    if name = [] then "/" else String.mk name.reverse

/-- A clean absolute path `q` lies in the filesystem subtree rooted at `p`
exactly when `q = p` or `q` extends `p` past a separator. -/
def inSubtreeOf (q p : String) : Bool :=
  q == p || strStartsWith q (p ++ "/")

/- ## The job registry (`syncStorage` and the `Sync` struct) -/

/-- The `Sync` struct of the source: the job's path and its live telemetry
fields.  `Progress`, `Speed` and `Downloaded` are Go `uint` (64-bit),
modelled as `Nat` and always written through `goUint`.  The
`Context`/`Cancel` handles carry no data and are omitted. -/
structure SyncJob where
  path : String
  progress : Nat := 0
  speed : Nat := 0
  downloaded : Nat := 0
  timeLeft : String := ""
deriving Repr, DecidableEq

/-- The fresh job built at the top of `sync`: `Progress: 0, Speed: 0` are
explicit in the source, `Downloaded` and `TimeLeft` are Go zero values. -/
def newSyncJob (path : String) : SyncJob :=
  { path := path, progress := 0, speed := 0, downloaded := 0, timeLeft := "" }

/-- The overlap test of `sync` and `remove`, in the source's order:
`value.Path == path || strings.HasPrefix(value.Path, path) ||
strings.HasPrefix(path, value.Path)` where `existing` is the registered
path and `req` the requested one. -/
def overlapsCheck (existing req : String) : Bool :=
  existing == req || strStartsWith existing req || strStartsWith req existing

/-- The registry contents: `syncStorage.Data` is a Go map keyed by the
job's path; the entry order of the list is irrelevant to every operation. -/
def Registry : Type := List SyncJob

/-- The locked scan-then-insert of `sync`: refuse and leave the registry
unchanged when any registered path overlaps the request, otherwise insert
the job. -/
def tryInsert (reg : List SyncJob) (job : SyncJob) : Bool × List SyncJob :=
  if reg.any (fun v => overlapsCheck v.path job.path) then (false, reg)
  else (true, reg ++ [job])

/-- `sync(...)`: build the fresh job and run the locked scan-then-insert
(the spawned `startSync` goroutine is the supervisor task modelled
separately). -/
def syncOp (reg : List SyncJob) (path : String) : Bool × List SyncJob :=
  tryInsert reg (newSyncJob path)

/-- `delete(runningSyncs.Data, path)`: drop the exact-path entry. -/
def registryRemove (reg : List SyncJob) (p : String) : List SyncJob :=
  reg.filter (fun v => !(v.path == p))

/-- Exact-path lookup in the registry. -/
def regLookup (reg : List SyncJob) (p : String) : Option SyncJob :=
  reg.find? (fun v => v.path == p)

/-- Registry states reachable from the empty map by the program's two
mutations: the locked scan-then-insert of `sync` and the exact-path delete
(the supervisor's deferred removal). -/
inductive Reachable : List SyncJob → Prop
  | empty : Reachable []
  | insert (reg : List SyncJob) (job : SyncJob) :
      Reachable reg → Reachable (tryInsert reg job).2
  | removed (reg : List SyncJob) (p : String) :
      Reachable reg → Reachable (registryRemove reg p)

/-- Pairwise absence of overlaps between registered paths. -/
def NoOverlap (reg : List SyncJob) : Prop :=
  reg.Pairwise (fun a b => overlapsCheck a.path b.path = false)

/- ## Progress-token parsing (the stdout reader of `startSync`) -/

/-- One step of the stdout token loop of `startSync`, in the source's
order: `%`-suffixed tokens, then `/s`-suffixed ones, then tokens with a
`:`, then comma-grouped byte counts.  `fromHumanSize` is docker/go-units
`FromHumanSize` (a float64-based human byte-count parser), modelled as an
abstract fallible parser supplied as a parameter — the loop only observes
success-with-value (then converted through `uint`) or failure.  A failed
parse is logged and leaves the field at its previous value; the loop
continues with the next token. -/
def processToken (fromHumanSize : String → Option Int) (cur : SyncJob)
    (text : String) : SyncJob :=
  if strEndsWith text "%" then
    match goAtoi (trimSuffixStr text "%") with
    | some v => { cur with progress := goUint v }
    | none => cur
  else if strEndsWith text "/s" then
    match fromHumanSize (trimSuffixStr text "/s") with
    | some v => { cur with speed := goUint v }
    | none => cur
  else if strContainsChar text ':' then
    { cur with timeLeft := text }
  else
    match goAtoi (removeCommas text) with
    | some v => { cur with downloaded := goUint v }
    | none => cur

/-- The whole stdout reader: fold the token step over the
whitespace-delimited token stream produced by `bufio.ScanWords`. -/
def processTokens (fromHumanSize : String → Option Int) (cur : SyncJob)
    (tokens : List String) : SyncJob :=
  tokens.foldl (processToken fromHumanSize) cur

/-- Rule 1 of the token grammar applies: the token ends in `%`. -/
def isPctTok (t : String) : Bool := strEndsWith t "%"

/-- Rule 2 applies: not rule 1, and the token ends in `/s`. -/
def isSpeedTok (t : String) : Bool := !strEndsWith t "%" && strEndsWith t "/s"

/-- Rule 3 applies: not rules 1–2, and the token contains `:`. -/
def isTimeTok (t : String) : Bool :=
  !strEndsWith t "%" && !strEndsWith t "/s" && strContainsChar t ':'

/-- Rule 4 applies: none of rules 1–3. -/
def isByteTok (t : String) : Bool :=
  !strEndsWith t "%" && !strEndsWith t "/s" && !strContainsChar t ':'

/- ## The `Remove` handler and `remove(...)` -/

/-- Outcome of the `Remove` handler, with its HTTP shape: `invalidPath` is
the 400 `"invalid path"` answer, `conflict` the 409 `"sync in progress"`
answer, `ioError` the propagated `remove all:` failure. -/
inductive RemoveOutcome
  | ok
  | invalidPath
  | conflict
  | ioError
deriving Repr, DecidableEq

/-- The `Remove` handler composed with `remove(...)`: validate the request
path against the keys of a fresh local tree walk (`buildLocalTree`; its
observable effect on this handler is key membership, supplied as
`localPaths`), then run the same locked overlap scan as `sync`, then
`os.RemoveAll` (whose failure is the environment parameter `rmFails`).
The second component records whether the filesystem deletion was invoked
at all. -/
def removeRequest (localPaths : List String) (rmFails : Bool)
    (reg : List SyncJob) (path : String) : RemoveOutcome × Bool :=
  if !(localPaths.contains path) then (.invalidPath, false)
  else if reg.any (fun v => overlapsCheck v.path path) then (.conflict, false)
  else if rmFails then (.ioError, true)
  else (.ok, true)

/- ## The supervisor task (`startSync`) -/

/-- How one run of the supervisor task `startSync` ends: destination
`os.MkdirAll` failure, `StderrPipe`/`StdoutPipe` setup failure (both
before the process is started), or `cmd.Run()` returning after process
exit, with or without an error (error and cancellation included). -/
inductive SupervisorOutcome
  | mkdirFailed
  | stderrPipeFailed
  | stdoutPipeFailed
  | processExited (withError : Bool)
deriving Repr, DecidableEq

/-- Whether the run reached `cmd.Run()`: only the process-exit outcome
ever spawned the transfer process; every earlier failure returns first. -/
def processSpawned : SupervisorOutcome → Bool
  | .processExited _ => true
  | _ => false

/-- The registry effect of one complete run of `startSync`: whichever
branch ends the function, the deferred handler deletes the job's
exact-path entry under the lock.  The second component is whether a
transfer process was spawned. -/
def startSyncTask (outcome : SupervisorOutcome) (reg : List SyncJob)
    (jobPath : String) : List SyncJob × Bool :=
  match outcome with
  | .mkdirFailed => (registryRemove reg jobPath, false)
  | .stderrPipeFailed => (registryRemove reg jobPath, false)
  | .stdoutPipeFailed => (registryRemove reg jobPath, false)
  | .processExited _ => (registryRemove reg jobPath, true)

/- ## The cancellation watcher (inside `startSync`) -/

/-- The data of Go `os.Process` the watcher touches: the pid, and whether
the process has already exited (`Signal` on a finished process returns an
error, which the watcher merely logs). -/
structure ProcHandle where
  pid : Int
  exited : Bool
deriving Repr, DecidableEq

/-- One observable action of the cancellation watcher. -/
inductive WatcherStep
  | sigterm (delivered : Bool)
  | sleepSeconds (n : Nat)
  | cancelContext
deriving Repr, DecidableEq

/-- The watcher goroutine body of `startSync` once the job's cancellation
signal has fired.  `proc` is `cmd.Process`: `none` when the process was
never started (a Go nil pointer).  The source guards with
`cmd.Process.Pid != -1`, which dereferences that nil pointer when the
process was never started — a runtime panic, modelled as `Except.error`;
otherwise it sends SIGTERM (delivery failure only logged), sleeps a fixed
5 seconds, and cancels the process's execution context. -/
def cancelWatcher (proc : Option ProcHandle) : Except String (List WatcherStep) :=
  match proc with
  | none => .error "runtime error: invalid memory address or nil pointer dereference"
  | some p =>
    if p.pid != -1 then
      .ok [.sigterm (!p.exited), .sleepSeconds 5, .cancelContext]
    else
      .ok []

/- ## The snapshot (`ListSyncs`) -/

/-- The `SyncResult` view serialized for the dashboard. -/
structure SyncView where
  path : String
  progress : Nat
  speed : Nat
  downloaded : Nat
  timeLeft : String
deriving Repr, DecidableEq

/-- The per-entry field copy done under the lock. -/
def syncView (s : SyncJob) : SyncView :=
  ⟨s.path, s.progress, s.speed, s.downloaded, s.timeLeft⟩

/-- `ListSyncs`: copy every entry's observable fields, then sort by path
in descending byte-wise order (`sort.Slice` with
`less i j = Path i > Path j`).  `sort.Slice` is an unspecified, unstable
comparison sort and the Go map is iterated in unspecified order; with
pairwise-distinct keys every comparison sort of every iteration order
yields the same list, so the model fixes insertion sort over the given
entry order. -/
def listSyncs (reg : List SyncJob) : List SyncView :=
  List.insertionSort (fun a b => strLtG a.path b.path = false) (reg.map syncView)

/- ## The remote tree builder (`buildRemoteTree`) -/

/-- One `Dir` node of the remote tree.  In the source, `Parent` is a Go
pointer to the node that `pathMap[filepath.Dir(path)]` held when the line
was processed; nodes are allocated in stream order and never freed, so
the arena index plays the role of the pointer.  The source also fills a
`Children` map (`parent.Children[item.Name] = &item`), but no code of the
program ever reads it, so it carries no observable behaviour and is
omitted. -/
structure RNode where
  path : String
  name : String
  parent : Option Nat
  synced : Bool
deriving Repr, DecidableEq

/-- The state of `buildRemoteTree`'s scan loop: the arena of allocated
nodes (index = allocation order) and `pathMap`, an association list
path → arena index, most recent binding first (a Go map insert
overwrites, which cons-with-shadowing models for lookup). -/
structure RTree where
  arena : List RNode
  pmap : List (String × Nat)
deriving Repr, DecidableEq

/-- One iteration of the scan loop: resolve the parent by
`pathMap[filepath.Dir(path)]` against the map as it stands, allocate the
node with `Synced: true`, and bind its path to it. -/
def addRemoteLine (st : RTree) (line : String) : RTree :=
  let parent := st.pmap.lookup (goDir line)
  let node : RNode := ⟨line, goBase line, parent, true⟩
  ⟨st.arena ++ [node], (line, st.arena.length) :: st.pmap⟩

/-- The whole scan loop over the newline-delimited listing stream. -/
def buildPhase (lines : List String) : RTree :=
  lines.foldl addRemoteLine ⟨[], []⟩

/-- `setNotSynced` with explicit fuel: clear `Synced` on slot `i`, then
recurse into the parent.  The fuel only serves termination — the source
recursion terminates because the pointer graph is acyclic, and in every
`buildPhase` arena each parent points to a strictly earlier slot, so
fuel `i + 1` always suffices. -/
def setNotSyncedFuel : Nat → List RNode → Nat → List RNode
  | 0, arena, _ => arena
  | fuel + 1, arena, i =>
    (arena[i]?).elim arena fun node =>
      (node.parent).elim (arena.set i { node with synced := false }) fun p =>
        setNotSyncedFuel fuel (arena.set i { node with synced := false }) p

/-- The source's recursive `setNotSynced`, entered at slot `i`. -/
def setNotSynced (arena : List RNode) (i : Nat) : List RNode :=
  setNotSyncedFuel (i + 1) arena i

/-- Fuelled membership of slot `k` in the ancestor chain of slot `i`
(the slot itself, its parent, its parent's parent, …). -/
def onChainFuel : Nat → List RNode → Nat → Nat → Bool
  | 0, _, _, _ => false
  | fuel + 1, arena, i, k =>
    (arena[i]?).elim false fun node =>
      i == k || (node.parent).elim false fun p => onChainFuel fuel arena p k

/-- Slot `k` lies on the ancestor chain starting at slot `i`. -/
def onChain (arena : List RNode) (i k : Nat) : Bool :=
  onChainFuel (i + 1) arena i k

/-- The key/value pairs a Go `range` over the map sees: one per distinct
key, the most recent binding (older shadowed bindings dropped). -/
def dedupKeysAux (seen : List String) : List (String × Nat) → List (String × Nat)
  | [] => []
  | kv :: rest =>
    if seen.contains kv.1 then dedupKeysAux seen rest
    else kv :: dedupKeysAux (kv.1 :: seen) rest

/-- The live (unshadowed) entries of `pathMap`. -/
def liveEntries (pmap : List (String × Nat)) : List (String × Nat) :=
  dedupKeysAux [] pmap

/-- The marking pass of `buildRemoteTree`: for every map entry whose path
is not a key of `localPathMap`, run `setNotSynced` from its node.  The Go
map iteration order is unspecified; the fold order is irrelevant because
marking only clears flags along parent chains that it never alters
(`buildRemoteTree_ancestor_propagation` characterizes the result without
reference to the order). -/
def markPhase (localKeys : List String) (st : RTree) : RTree :=
  ⟨(liveEntries st.pmap).foldl
      (fun arena kv =>
        if localKeys.contains kv.1 then arena else setNotSynced arena kv.2)
      st.arena,
    st.pmap⟩

/-- `buildRemoteTree`, as a function of the listing stream and of the key
set of `localPathMap` (the only part of the local tree the function
reads is key membership). -/
def buildRemoteTree (lines : List String) (localKeys : List String) : RTree :=
  markPhase localKeys (buildPhase lines)

/-- The synced flag the finished tree reports for a path. -/
def syncedOf (st : RTree) (path : String) : Option Bool :=
  ((st.pmap.lookup path).bind fun i => st.arena[i]?).map RNode.synced

/-- Every parent pointer points to a strictly earlier arena slot. -/
def ParentsDec (arena : List RNode) : Prop :=
  ∀ (i : Nat) (n : RNode), arena[i]? = some n → ∀ p, n.parent = some p → p < i

/-- Well-formedness of a scan-loop state: parents decrease, map indices
are in range and name their node's path, and every node is still marked
synced (the scan loop allocates every node with `Synced: true`). -/
def TreeWF (st : RTree) : Prop :=
  ParentsDec st.arena
  ∧ (∀ kv ∈ st.pmap, kv.2 < st.arena.length)
  ∧ (∀ kv ∈ st.pmap, ∃ n, st.arena[kv.2]? = some n ∧ n.path = kv.1)
  ∧ (∀ (i : Nat) (n : RNode), st.arena[i]? = some n → n.synced = true)

/-- The spec's ordering requirement on the listing stream (top-down,
parent before child): whenever the directory of a line occurs in the
stream at all (the line is not a root of the listed forest), it has
already occurred before that line, so the parent reference resolves when
the child is processed. -/
def parentBeforeChild (lines : List String) : Prop :=
  ∀ i : Fin lines.length,
    goDir (lines.get i) ≠ lines.get i →
    goDir (lines.get i) ∈ lines →
    goDir (lines.get i) ∈ lines.take i

instance (lines : List String) : Decidable (parentBeforeChild lines) := by
  unfold parentBeforeChild
  infer_instance

/- ## The `StartSync` handler -/

/-- Outcome of the `StartSync` handler: `invalidPath` is the 400
`"invalid path"` answer, `conflict` the 409 `"sync already started"`
answer. -/
inductive StartOutcome
  | ok
  | invalidPath
  | conflict
deriving Repr, DecidableEq

/-- Whether `request.Path` is a key of the remote tree freshly built with
an empty local map (`buildRemoteTree(…, map[string]*Dir{})`). -/
def remotePathKnown (lines : List String) (path : String) : Bool :=
  ((buildRemoteTree lines []).pmap.lookup path).isSome

/-- The `StartSync` handler: validate the path against the fresh remote
listing, then run `sync(...)` — the fresh job plus the locked
scan-then-insert.  On acceptance the job is handed to the asynchronous
supervisor task (`startSyncTask`) and the handler returns at once; the
handler itself never waits for the transfer. -/
def startRequest (lines : List String) (reg : List SyncJob) (path : String) :
    StartOutcome × List SyncJob :=
  if !(remotePathKnown lines path) then (.invalidPath, reg)
  else
    match syncOp reg path with
    | (true, reg2) => (.ok, reg2)
    | (false, reg2) => (.conflict, reg2)

/- ## Theorems -/

theorem listStartsWith_refl (l : List Char) : listStartsWith l l = true := by
  induction l with
  | nil => rfl
  | cons c cs ih => simp [listStartsWith, ih]

theorem strStartsWith_refl (s : String) : strStartsWith s s = true :=
  listStartsWith_refl s.toList

theorem overlapsCheck_comm (a b : String) :
    overlapsCheck a b = overlapsCheck b a := by
  simp only [overlapsCheck]
  cases h1 : a == b
  · cases h2 : b == a
    · ac_rfl
    · exact absurd (by simpa using (beq_iff_eq.mp h2).symm) (by simpa using h1)
  · have : b == a := by simpa using (beq_iff_eq.mp h1).symm
    simp [this]

theorem reachable_noOverlap (reg : List SyncJob) (h : Reachable reg) : NoOverlap reg := by
  induction h with
  | empty => exact List.Pairwise.nil
  | insert reg job _ ih =>
    by_cases hany : reg.any (fun v => overlapsCheck v.path job.path) = true
    · simpa [tryInsert, hany] using ih
    · have hall : ∀ v ∈ reg, overlapsCheck v.path job.path = false := by
        intro v hv
        have := List.any_eq_false.mp (Bool.eq_false_iff.mpr hany) v hv
        simpa using this
      simp only [tryInsert, hany, if_false, Bool.false_eq_true]
      show (reg ++ [job]).Pairwise _
      rw [List.pairwise_append]
      exact ⟨ih, List.pairwise_singleton _ _, by
        intro a ha b hb
        simp only [List.mem_singleton] at hb
        subst hb
        exact hall a ha⟩
  | removed reg p _ ih =>
    exact ih.sublist (List.filter_sublist reg)

/-- C1: the locked scan-then-insert of `sync` (`tryInsert`) returns `false`
and leaves the registry unchanged whenever a registered path equals the
request, is a prefix of it, or has it as a prefix; otherwise it inserts the
job and returns `true`.  Consequently, in every reachable registry state no
registered path is a string prefix of another distinct entry's path. -/
theorem tryInsert_no_overlap_invariant (reg : List SyncJob) (job : SyncJob)
    (h : Reachable reg) :
    (tryInsert reg job = (false, reg) ↔
      ∃ v ∈ reg, overlapsCheck v.path job.path = true)
    ∧ (tryInsert reg job = (true, reg ++ [job]) ↔
      ∀ v ∈ reg, overlapsCheck v.path job.path = false)
    ∧ (∀ p ∈ reg, ∀ q ∈ reg, p ≠ q →
      strStartsWith q.path p.path = false ∧ strStartsWith p.path q.path = false) := by
  have noOv : NoOverlap reg := reachable_noOverlap reg h
  refine ⟨?_, ?_, ?_⟩
  · constructor
    · intro heq
      by_cases hany : reg.any (fun v => overlapsCheck v.path job.path) = true
      · simpa using List.any_eq_true.mp hany
      · simp only [tryInsert, hany, if_false, Bool.false_eq_true] at heq
        exact absurd (congrArg Prod.fst heq) (by simp)
    · intro ⟨v, hv, hov⟩
      have hany : reg.any (fun v => overlapsCheck v.path job.path) = true :=
        List.any_eq_true.mpr ⟨v, hv, hov⟩
      simp [tryInsert, hany]
  · constructor
    · intro heq
      by_cases hany : reg.any (fun v => overlapsCheck v.path job.path) = true
      · simp only [tryInsert, hany, if_true] at heq
        exact absurd (congrArg Prod.fst heq) (by simp)
      · intro v hv
        have := List.any_eq_false.mp (Bool.eq_false_iff.mpr hany) v hv
        simpa using this
    · intro hall
      have hany : reg.any (fun v => overlapsCheck v.path job.path) = false :=
        List.any_eq_false.mpr (by intro v hv; simp [hall v hv])
      simp [tryInsert, hany]
  · intro p hp q hq hne
    have hsym : Symmetric (fun a b : SyncJob => overlapsCheck a.path b.path = false) := by
      intro a b hab
      rw [overlapsCheck_comm]
      exact hab
    have hov : overlapsCheck p.path q.path = false := noOv.forall hsym hp hq hne
    unfold overlapsCheck at hov
    rcases Bool.or_eq_false_iff.mp hov with ⟨hAB, hC⟩
    rcases Bool.or_eq_false_iff.mp hAB with ⟨hA, hB⟩
    exact ⟨hC, hB⟩

theorem tryInsert_no_overlap_invariant_witness :
    (tryInsert [newSyncJob "/a"] (newSyncJob "/a/b") = (false, [newSyncJob "/a"]) ↔
      ∃ v ∈ [newSyncJob "/a"], overlapsCheck v.path (newSyncJob "/a/b").path = true)
    ∧ (tryInsert [newSyncJob "/a"] (newSyncJob "/a/b") =
      (true, [newSyncJob "/a"] ++ [newSyncJob "/a/b"]) ↔
      ∀ v ∈ [newSyncJob "/a"], overlapsCheck v.path (newSyncJob "/a/b").path = false)
    ∧ (∀ p ∈ [newSyncJob "/a"], ∀ q ∈ [newSyncJob "/a"], p ≠ q →
      strStartsWith q.path p.path = false ∧ strStartsWith p.path q.path = false) :=
  tryInsert_no_overlap_invariant [newSyncJob "/a"] (newSyncJob "/a/b")
    (Reachable.insert [] (newSyncJob "/a") Reachable.empty)

/-- C3: every whitespace-delimited token falls under exactly one rule of
the priority chain `%`-suffix → `/s`-suffix → contains-`:` → byte count;
the applicable rule updates only its own field (through the stated
stripping and parsing), a parse failure leaves that field at its previous
value, and no other field of the job is ever modified.  The step is a
total function of the previous state and the token, so no token can abort
the job. -/
theorem progress_token_classification (fromHumanSize : String → Option Int)
    (cur : SyncJob) (text : String) :
    ((if isPctTok text then 1 else 0) + (if isSpeedTok text then 1 else 0)
      + (if isTimeTok text then 1 else 0) + (if isByteTok text then 1 else 0) = 1)
    ∧ (processToken fromHumanSize cur text).progress =
      (if isPctTok text then
        match goAtoi (trimSuffixStr text "%") with
        | some v => goUint v
        | none => cur.progress
      else cur.progress)
    ∧ (processToken fromHumanSize cur text).speed =
      (if isSpeedTok text then
        match fromHumanSize (trimSuffixStr text "/s") with
        | some v => goUint v
        | none => cur.speed
      else cur.speed)
    ∧ (processToken fromHumanSize cur text).timeLeft =
      (if isTimeTok text then text else cur.timeLeft)
    ∧ (processToken fromHumanSize cur text).downloaded =
      (if isByteTok text then
        match goAtoi (removeCommas text) with
        | some v => goUint v
        | none => cur.downloaded
      else cur.downloaded)
    ∧ (processToken fromHumanSize cur text).path = cur.path := by
  cases h1 : strEndsWith text "%" with
  | true =>
    cases hg : goAtoi (trimSuffixStr text "%") with
    | none => simp [processToken, isPctTok, isSpeedTok, isTimeTok, isByteTok, h1, hg]
    | some v => simp [processToken, isPctTok, isSpeedTok, isTimeTok, isByteTok, h1, hg]
  | false =>
    cases h2 : strEndsWith text "/s" with
    | true =>
      cases hs : fromHumanSize (trimSuffixStr text "/s") with
      | none => simp [processToken, isPctTok, isSpeedTok, isTimeTok, isByteTok, h1, h2, hs]
      | some v => simp [processToken, isPctTok, isSpeedTok, isTimeTok, isByteTok, h1, h2, hs]
    | false =>
      cases h3 : strContainsChar text ':' with
      | true => simp [processToken, isPctTok, isSpeedTok, isTimeTok, isByteTok, h1, h2, h3]
      | false =>
        cases hb : goAtoi (removeCommas text) with
        | none =>
          simp [processToken, isPctTok, isSpeedTok, isTimeTok, isByteTok, h1, h2, h3, hb]
        | some v =>
          simp [processToken, isPctTok, isSpeedTok, isTimeTok, isByteTok, h1, h2, h3, hb]

/-- C10: the token `-5%` is not a parse failure — `strconv.Atoi` accepts
the sign, and the conversion `uint(v)` wraps the negative result to
`2 ^ 64 - 5` (Go `uint` is the 64-bit machine word), with no clamping or
range check of the 0–100 progress range. -/
theorem negative_percent_wraps_around (fromHumanSize : String → Option Int)
    (cur : SyncJob) :
    processToken fromHumanSize cur "-5%" = { cur with progress := 2 ^ 64 - 5 } := by
  have h1 : strEndsWith "-5%" "%" = true := by decide
  have h2 : trimSuffixStr "-5%" "%" = "-5" := by decide
  have h3 : goAtoi "-5" = some (-5) := by decide
  have h4 : goUint (-5) = 2 ^ 64 - 5 := by decide
  simp [processToken, h1, h2, h3, h4]

/-- C5: the `Remove` handler fails with `"invalid path"` when the path is
not a key of the fresh local tree walk; otherwise it refuses with
`"sync in progress"` exactly when some registered job's path equals the
request, is a prefix of it, or has it as a prefix — and then the
filesystem deletion is never invoked; otherwise it invokes the recursive
deletion and reports an IO error exactly when that deletion fails. -/
theorem remove_request_behavior (localPaths : List String) (rmFails : Bool)
    (reg : List SyncJob) (path : String) :
    (removeRequest localPaths rmFails reg path = (.invalidPath, false) ↔
      localPaths.contains path = false)
    ∧ (removeRequest localPaths rmFails reg path = (.conflict, false) ↔
      localPaths.contains path = true ∧ ∃ v ∈ reg, overlapsCheck v.path path = true)
    ∧ ((removeRequest localPaths rmFails reg path).1 = .ioError ↔
      localPaths.contains path = true ∧ (∀ v ∈ reg, overlapsCheck v.path path = false)
        ∧ rmFails = true)
    ∧ ((removeRequest localPaths rmFails reg path).1 = .ok ↔
      localPaths.contains path = true ∧ (∀ v ∈ reg, overlapsCheck v.path path = false)
        ∧ rmFails = false)
    ∧ ((removeRequest localPaths rmFails reg path).2 = true ↔
      localPaths.contains path = true ∧ ∀ v ∈ reg, overlapsCheck v.path path = false) := by
  by_cases hc : localPaths.contains path = true
  · have hm : path ∈ localPaths := by simpa using hc
    by_cases hany : reg.any (fun v => overlapsCheck v.path path) = true
    · have hex : ∃ v ∈ reg, overlapsCheck v.path path = true := by
        simpa using List.any_eq_true.mp hany
      have hnall : ¬ ∀ v ∈ reg, overlapsCheck v.path path = false := by
        obtain ⟨v, hv, hov⟩ := hex
        intro hall
        exact absurd (hall v hv) (by simp [hov])
      cases rmFails <;> simp [removeRequest, hc, hm, hany, hex, hnall]
    · have hany' : reg.any (fun v => overlapsCheck v.path path) = false :=
        Bool.eq_false_iff.mpr hany
      have hall : ∀ v ∈ reg, overlapsCheck v.path path = false := by
        intro v hv
        simpa using List.any_eq_false.mp hany' v hv
      have hnex : ¬ ∃ v ∈ reg, overlapsCheck v.path path = true := by
        rintro ⟨v, hv, hov⟩
        exact absurd (hall v hv) (by simp [hov])
      cases rmFails <;> simp [removeRequest, hc, hm, hany', hnex] <;> exact hall
  · have hc' : localPaths.contains path = false := Bool.eq_false_iff.mpr hc
    have hm' : ¬ path ∈ localPaths := by simpa using hc'
    simp [removeRequest, hc', hm']

theorem regLookup_registryRemove (reg : List SyncJob) (p q : String) :
    regLookup (registryRemove reg p) q = if q = p then none else regLookup reg q := by
  induction reg with
  | nil =>
    show (none : Option SyncJob) = if q = p then none else none
    exact (ite_self none).symm
  | cons v vs ih =>
    by_cases hv : v.path = p
    · have hfil : registryRemove (v :: vs) p = registryRemove vs p := by
        simp [registryRemove, List.filter_cons, hv]
      rw [hfil, ih]
      by_cases hq : q = p
      · simp [hq]
      · have hvq : (v.path == q) = false := by
          simp only [beq_eq_false_iff_ne, ne_eq, hv]
          exact fun h => hq h.symm
        simp [hq, regLookup, List.find?_cons, hvq]
    · have hfil : registryRemove (v :: vs) p = v :: registryRemove vs p := by
        simp [registryRemove, List.filter_cons, hv]
      rw [hfil]
      by_cases hvq : v.path = q
      · have hq : ¬ q = p := fun h => hv (hvq.trans h)
        have hvq' : (v.path == q) = true := by simp [hvq]
        simp [regLookup, List.find?_cons, hvq', hq]
      · have hvq' : (v.path == q) = false := by simp [hvq]
        have lhs : regLookup (v :: registryRemove vs p) q =
            regLookup (registryRemove vs p) q := by
          simp [regLookup, List.find?_cons, hvq']
        have rhs : regLookup (v :: vs) q = regLookup vs q := by
          simp [regLookup, List.find?_cons, hvq']
        rw [lhs, rhs, ih]

/-- C6: however the supervisor task for a job ends — destination-directory
creation failure (no process spawned at all), pipe-setup failure, or
process exit for any reason — the job's exact-path entry is removed from
the registry and every other entry is untouched; a transfer process was
spawned exactly when the run ended in process exit. -/
theorem job_removal_invariant (outcome : SupervisorOutcome) (reg : List SyncJob)
    (jobPath q : String) :
    regLookup (startSyncTask outcome reg jobPath).1 q =
      (if q = jobPath then none else regLookup reg q)
    ∧ ((startSyncTask outcome reg jobPath).2 = true ↔
      ∃ e, outcome = SupervisorOutcome.processExited e) := by
  cases outcome <;> simp [startSyncTask, regLookup_registryRemove]

/-- C7: once the cancellation signal fires, the watcher of a job whose
process was started sends SIGTERM (delivery failure only logged), sleeps
a fixed 5 seconds regardless of whether the process already exited, and
then force-cancels the execution context; but when the process handle is
nil (the process was never started) the guard `cmd.Process.Pid != -1`
dereferences a nil pointer and the goroutine panics instead of the
claimed harmless no-op. -/
theorem cancel_watcher_nil_handle_faults :
    (∃ msg, cancelWatcher none = .error msg)
    ∧ (∀ p : ProcHandle, cancelWatcher (some p) =
      .ok (if p.pid != -1 then
        [.sigterm (!p.exited), .sleepSeconds 5, .cancelContext]
      else [])) := by
  refine ⟨⟨_, rfl⟩, ?_⟩
  intro p
  by_cases h : (p.pid != -1) = true <;> simp [cancelWatcher, h]

/-- C9: the overlap scan used by both `sync` and `remove` compares raw
character-level prefixes, not path components: with `/a` registered, the
disjoint sibling `/ab` — not equal to `/a`, not inside its subtree, not
containing it, with different components — is still refused by the
insert scan and by the removal scan. -/
theorem overlap_scan_is_raw_string_level :
    overlapsCheck "/a" "/ab" = true
    ∧ inSubtreeOf "/ab" "/a" = false
    ∧ inSubtreeOf "/a" "/ab" = false
    ∧ ("/a" : String) ≠ "/ab"
    ∧ pathComponents "/a" = ["", "a"]
    ∧ pathComponents "/ab" = ["", "ab"]
    ∧ ¬ List.IsPrefix (pathComponents "/a") (pathComponents "/ab")
    ∧ ¬ List.IsPrefix (pathComponents "/ab") (pathComponents "/a")
    ∧ tryInsert [newSyncJob "/a"] (newSyncJob "/ab") = (false, [newSyncJob "/a"])
    ∧ removeRequest ["/ab"] false [newSyncJob "/a"] "/ab" = (.conflict, false) := by
  decide

theorem listLtChars_asymm (x y : List Char) (h1 : listLtChars x y = true)
    (h2 : listLtChars y x = true) : False := by
  induction x generalizing y with
  | nil =>
    cases y with
    | nil => simp [listLtChars] at h1
    | cons b bs => simp [listLtChars] at h2
  | cons a as ih =>
    cases y with
    | nil => simp [listLtChars] at h1
    | cons b bs =>
      by_cases hab : a = b
      · subst hab
        simp only [listLtChars, beq_self_eq_true, if_true] at h1 h2
        exact ih bs h1 h2
      · have hb : (a == b) = false := by simp [hab]
        have hb' : (b == a) = false := by
          simp only [beq_eq_false_iff_ne, ne_eq]
          exact fun h => hab h.symm
        simp only [listLtChars, hb, hb', Bool.false_eq_true, if_false,
          decide_eq_true_eq] at h1 h2
        exact Nat.lt_asymm h1 h2

theorem listLtChars_trans (x y z : List Char) (h1 : listLtChars x y = true)
    (h2 : listLtChars y z = true) : listLtChars x z = true := by
  induction x generalizing y z with
  | nil =>
    cases z with
    | nil =>
      cases y with
      | nil => simp [listLtChars] at h1
      | cons b bs => simp [listLtChars] at h2
    | cons c cs => simp [listLtChars]
  | cons a as ih =>
    cases y with
    | nil => simp [listLtChars] at h1
    | cons b bs =>
      cases z with
      | nil => simp [listLtChars] at h2
      | cons c cs =>
        by_cases hab : a = b <;> by_cases hbc : b = c
        · subst hab; subst hbc
          simp only [listLtChars, beq_self_eq_true, if_true] at h1 h2 ⊢
          exact ih bs cs h1 h2
        · have hbcb : (b == c) = false := by simp [hbc]
          have hacb : (a == c) = false := by
            simp only [beq_eq_false_iff_ne, ne_eq]
            rw [hab]
            exact hbc
          simp only [listLtChars, hbcb, hacb, Bool.false_eq_true, if_false,
            decide_eq_true_eq] at h2 ⊢
          rw [hab]
          exact h2
        · have haba : (a == b) = false := by simp [hab]
          have hacb : (a == c) = false := by
            simp only [beq_eq_false_iff_ne, ne_eq]
            rw [← hbc]
            exact hab
          simp only [listLtChars, haba, hacb, Bool.false_eq_true, if_false,
            decide_eq_true_eq] at h1 ⊢
          rw [← hbc]
          exact h1
        · have haba : (a == b) = false := by simp [hab]
          have hbcb : (b == c) = false := by simp [hbc]
          simp only [listLtChars, haba, hbcb, Bool.false_eq_true, if_false,
            decide_eq_true_eq] at h1 h2
          have hac : a.toNat < c.toNat := Nat.lt_trans h1 h2
          have hacb : (a == c) = false := by
            simp only [beq_eq_false_iff_ne, ne_eq]
            intro h
            subst h
            exact Nat.lt_irrefl _ hac
          simp only [listLtChars, hacb, Bool.false_eq_true, if_false, decide_eq_true_eq]
          exact hac

theorem listLtChars_conn (x y : List Char) (h1 : listLtChars x y = false)
    (h2 : listLtChars y x = false) : x = y := by
  induction x generalizing y with
  | nil =>
    cases y with
    | nil => rfl
    | cons b bs => simp [listLtChars] at h1
  | cons a as ih =>
    cases y with
    | nil => simp [listLtChars] at h2
    | cons b bs =>
      by_cases hab : a = b
      · subst hab
        simp only [listLtChars, beq_self_eq_true, if_true] at h1 h2
        rw [ih bs h1 h2]
      · have hb : (a == b) = false := by simp [hab]
        have hb' : (b == a) = false := by
          simp only [beq_eq_false_iff_ne, ne_eq]
          exact fun h => hab h.symm
        simp only [listLtChars, hb, hb', Bool.false_eq_true, if_false,
          decide_eq_false_iff_not, Nat.not_lt] at h1 h2
        have heq : a.toNat = b.toNat := Nat.le_antisymm h2 h1
        exact absurd (Char.ext (UInt32.ext heq)) hab

theorem strLtG_asymm (a b : String) (h1 : strLtG a b = true) (h2 : strLtG b a = true) :
    False :=
  listLtChars_asymm a.toList b.toList h1 h2

theorem strLtG_trans (a b c : String) (h1 : strLtG a b = true) (h2 : strLtG b c = true) :
    strLtG a c = true :=
  listLtChars_trans a.toList b.toList c.toList h1 h2

theorem strLtG_conn (a b : String) (h1 : strLtG a b = false) (h2 : strLtG b a = false) :
    a = b :=
  String.ext (listLtChars_conn a.toList b.toList h1 h2)

instance : IsTotal SyncView (fun a b => strLtG a.path b.path = false) := by
  constructor
  intro a b
  cases h : strLtG a.path b.path with
  | false => exact Or.inl rfl
  | true =>
    right
    cases h' : strLtG b.path a.path with
    | false => rfl
    | true => exact (strLtG_asymm _ _ h h').elim

instance : IsTrans SyncView (fun a b => strLtG a.path b.path = false) := by
  constructor
  intro a b c hab hbc
  cases hac : strLtG a.path c.path with
  | false => rfl
  | true =>
    exfalso
    cases hba : strLtG b.path a.path with
    | false =>
      have heq : a.path = b.path := strLtG_conn _ _ hab hba
      rw [heq] at hac
      exact absurd hac (by simp [hbc])
    | true =>
      have := strLtG_trans _ _ _ hba hac
      exact absurd this (by simp [hbc])

instance : IsAntisymm SyncView (fun a b => strLtG b.path a.path = true) := by
  constructor
  intro a b h1 h2
  exact (strLtG_asymm _ _ h1 h2).elim

theorem listSyncs_sorted_strict (reg : List SyncJob)
    (h : (reg.map syncView).Pairwise (fun a b : SyncView => a.path ≠ b.path)) :
    (listSyncs reg).Pairwise (fun a b => strLtG b.path a.path = true) := by
  have hsorted : (listSyncs reg).Pairwise (fun a b : SyncView => strLtG a.path b.path = false) :=
    List.sorted_insertionSort _ _
  have hperm : (listSyncs reg).Perm (reg.map syncView) := List.perm_insertionSort _ _
  have hsymm : ∀ {a b : SyncView}, a.path ≠ b.path → b.path ≠ a.path :=
    fun hne he => hne he.symm
  have houtne : (listSyncs reg).Pairwise (fun a b : SyncView => a.path ≠ b.path) :=
    (hperm.pairwise_iff hsymm).mpr h
  refine (hsorted.and houtne).imp ?_
  intro a b hx
  obtain ⟨hge, hne⟩ := hx
  cases hlt : strLtG b.path a.path with
  | false => exact absurd (strLtG_conn _ _ hge hlt) hne
  | true => rfl

/-- C8: the snapshot is exactly one view per registered job carrying the
job's observable fields (a permutation of the per-entry copies), it is
sorted by path in strictly descending byte-wise order, and it is the same
list for every iteration order of the registry map — deterministic for a
given set of registered paths and field values. -/
theorem snapshot_ordering (reg : List SyncJob)
    (hpaths : reg.Pairwise (fun a b => a.path ≠ b.path)) :
    (listSyncs reg).Perm (reg.map syncView)
    ∧ (listSyncs reg).Pairwise (fun a b => strLtG b.path a.path = true)
    ∧ ∀ reg' : List SyncJob, reg'.Perm reg → listSyncs reg' = listSyncs reg := by
  have hvne : (reg.map syncView).Pairwise (fun a b : SyncView => a.path ≠ b.path) := by
    rw [List.pairwise_map]
    exact hpaths
  have hperm : (listSyncs reg).Perm (reg.map syncView) := List.perm_insertionSort _ _
  refine ⟨hperm, listSyncs_sorted_strict reg hvne, ?_⟩
  intro reg' hpr
  have hmapperm : (reg'.map syncView).Perm (reg.map syncView) := hpr.map syncView
  have hsymm : ∀ {a b : SyncView}, a.path ≠ b.path → b.path ≠ a.path :=
    fun hne he => hne he.symm
  have hvne' : (reg'.map syncView).Pairwise (fun a b : SyncView => a.path ≠ b.path) :=
    (hmapperm.pairwise_iff hsymm).mpr hvne
  have hperm' : (listSyncs reg').Perm (reg'.map syncView) := List.perm_insertionSort _ _
  have houtperm : (listSyncs reg').Perm (listSyncs reg) :=
    hperm'.trans (hmapperm.trans hperm.symm)
  exact List.eq_of_perm_of_sorted houtperm
    (listSyncs_sorted_strict reg' hvne') (listSyncs_sorted_strict reg hvne)

theorem snapshot_ordering_witness :
    (listSyncs [newSyncJob "/a", newSyncJob "/b"]).Perm
      ([newSyncJob "/a", newSyncJob "/b"].map syncView)
    ∧ listSyncs [newSyncJob "/b", newSyncJob "/a"] =
      listSyncs [newSyncJob "/a", newSyncJob "/b"] :=
  ⟨(snapshot_ordering [newSyncJob "/a", newSyncJob "/b"] (by decide)).1,
   (snapshot_ordering [newSyncJob "/a", newSyncJob "/b"] (by decide)).2.2
     [newSyncJob "/b", newSyncJob "/a"] (by decide)⟩

theorem lookup_mem {β : Type} (l : List (String × β)) (k : String) (v : β)
    (h : l.lookup k = some v) : (k, v) ∈ l := by
  induction l with
  | nil => cases h
  | cons kv rest ih =>
    rw [show kv = (kv.1, kv.2) from rfl, List.lookup_cons] at h
    by_cases hk : k = kv.1
    · subst hk
      simp only [beq_self_eq_true, if_true] at h
      cases h
      exact List.mem_cons_self _ _
    · have hk' : (k == kv.1) = false := by simp [hk]
      rw [hk'] at h
      simp only [Bool.false_eq_true, if_false] at h
      exact List.mem_cons_of_mem _ (ih h)

theorem getElem?_some_lt {α : Type} (l : List α) (i : Nat) (a : α)
    (h : l[i]? = some a) : i < l.length :=
  (List.getElem?_eq_some_iff.mp h).1

theorem parentMap_set_synced (arena : List RNode) (i : Nat) (node : RNode)
    (h : arena[i]? = some node) (j : Nat) :
    ((arena.set i { node with synced := false })[j]?).map RNode.parent =
      (arena[j]?).map RNode.parent := by
  by_cases hij : i = j
  · subst hij
    rw [List.getElem?_set_self (getElem?_some_lt arena i node h), h]
    rfl
  · rw [List.getElem?_set_ne hij]

theorem onChainFuel_congr (fuel : Nat) (a1 a2 : List RNode)
    (hpar : ∀ j : Nat, (a1[j]?).map RNode.parent = (a2[j]?).map RNode.parent)
    (i k : Nat) : onChainFuel fuel a1 i k = onChainFuel fuel a2 i k := by
  induction fuel generalizing i with
  | zero => rfl
  | succ fuel ih =>
    simp only [onChainFuel]
    cases h1 : a1[i]? with
    | none =>
      have h2 : a2[i]? = none := by
        have hp := hpar i
        rw [h1] at hp
        cases h2 : a2[i]? with
        | none => rfl
        | some n2 => rw [h2] at hp; cases hp
      rw [h2]
      rfl
    | some n1 =>
      have hp := hpar i
      rw [h1] at hp
      cases h2 : a2[i]? with
      | none => rw [h2] at hp; cases hp
      | some n2 =>
        rw [h2] at hp
        have hpeq : n1.parent = n2.parent := by
          simpa using hp
        simp only [Option.elim, hpeq]
        cases n2.parent with
        | none => rfl
        | some p => simp only [Option.elim, ih p]

theorem parentsDec_congr (a1 a2 : List RNode)
    (hpar : ∀ j : Nat, (a1[j]?).map RNode.parent = (a2[j]?).map RNode.parent)
    (hdec : ParentsDec a2) : ParentsDec a1 := by
  intro i n hi p hp
  have hpm := hpar i
  rw [hi] at hpm
  cases h2 : a2[i]? with
  | none => rw [h2] at hpm; cases hpm
  | some n2 =>
    rw [h2] at hpm
    have : n.parent = n2.parent := by simpa using hpm
    exact hdec i n2 h2 p (by rw [← this]; exact hp)

theorem setNotSyncedFuel_succ_none (fuel : Nat) (arena : List RNode) (i : Nat)
    (h : arena[i]? = none) : setNotSyncedFuel (fuel + 1) arena i = arena := by
  simp only [setNotSyncedFuel, h, Option.elim]

theorem setNotSyncedFuel_succ_noparent (fuel : Nat) (arena : List RNode) (i : Nat)
    (node : RNode) (h : arena[i]? = some node) (hp : node.parent = none) :
    setNotSyncedFuel (fuel + 1) arena i = arena.set i { node with synced := false } := by
  simp only [setNotSyncedFuel, h, hp, Option.elim]

theorem setNotSyncedFuel_succ_parent (fuel : Nat) (arena : List RNode) (i : Nat)
    (node : RNode) (p : Nat) (h : arena[i]? = some node) (hp : node.parent = some p) :
    setNotSyncedFuel (fuel + 1) arena i =
      setNotSyncedFuel fuel (arena.set i { node with synced := false }) p := by
  simp only [setNotSyncedFuel, h, hp, Option.elim]

theorem onChainFuel_succ_none (fuel : Nat) (arena : List RNode) (i k : Nat)
    (h : arena[i]? = none) : onChainFuel (fuel + 1) arena i k = false := by
  simp only [onChainFuel, h, Option.elim]

theorem onChainFuel_succ_noparent (fuel : Nat) (arena : List RNode) (i k : Nat)
    (node : RNode) (h : arena[i]? = some node) (hp : node.parent = none) :
    onChainFuel (fuel + 1) arena i k = (i == k) := by
  simp only [onChainFuel, h, hp, Option.elim, Bool.or_false]

theorem onChainFuel_succ_parent (fuel : Nat) (arena : List RNode) (i k : Nat)
    (node : RNode) (p : Nat) (h : arena[i]? = some node) (hp : node.parent = some p) :
    onChainFuel (fuel + 1) arena i k = (i == k || onChainFuel fuel arena p k) := by
  simp only [onChainFuel, h, hp, Option.elim]

theorem setNotSyncedFuel_getElem (fuel : Nat) (arena : List RNode) (i : Nat)
    (hdec : ParentsDec arena) (hfuel : i < fuel) (k : Nat) :
    (setNotSyncedFuel fuel arena i)[k]? =
      (arena[k]?).map fun n =>
        if onChainFuel fuel arena i k then { n with synced := false } else n := by
  induction fuel generalizing arena i with
  | zero => omega
  | succ fuel ih =>
    rcases Option.eq_none_or_eq_some (arena[i]?) with h | ⟨node, h⟩
    · rw [setNotSyncedFuel_succ_none fuel arena i h,
        onChainFuel_succ_none fuel arena i k h]
      cases arena[k]? <;> rfl
    · have hlen : i < arena.length := getElem?_some_lt arena i node h
      rcases Option.eq_none_or_eq_some node.parent with hp | ⟨p, hp⟩
      · rw [setNotSyncedFuel_succ_noparent fuel arena i node h hp,
          onChainFuel_succ_noparent fuel arena i k node h hp]
        by_cases hik : i = k
        · subst hik
          rw [List.getElem?_set_self hlen, h]
          simp
        · rw [List.getElem?_set_ne hik]
          have hikb : (i == k) = false := by simp [hik]
          simp [hikb]
      · rw [setNotSyncedFuel_succ_parent fuel arena i node p h hp,
          onChainFuel_succ_parent fuel arena i k node p h hp]
        have hpi : p < i := hdec i node h p hp
        have hpm := parentMap_set_synced arena i node h
        have hdec2 : ParentsDec (arena.set i { node with synced := false }) :=
          parentsDec_congr _ arena hpm hdec
        rw [ih (arena.set i { node with synced := false }) p hdec2 (by omega)]
        rw [onChainFuel_congr fuel _ arena hpm p k]
        by_cases hik : i = k
        · subst hik
          rw [List.getElem?_set_self hlen, h]
          simp
        · rw [List.getElem?_set_ne hik]
          have hikb : (i == k) = false := by simp [hik]
          simp [hikb]

theorem setNotSynced_getElem (arena : List RNode) (i : Nat) (hdec : ParentsDec arena)
    (k : Nat) :
    (setNotSynced arena i)[k]? =
      (arena[k]?).map fun n =>
        if onChain arena i k then { n with synced := false } else n :=
  setNotSyncedFuel_getElem (i + 1) arena i hdec (Nat.lt_succ_self i) k

theorem setNotSynced_parentMap (arena : List RNode) (i : Nat) (hdec : ParentsDec arena)
    (j : Nat) :
    ((setNotSynced arena i)[j]?).map RNode.parent = (arena[j]?).map RNode.parent := by
  rw [setNotSynced_getElem arena i hdec j]
  cases arena[j]? with
  | none => rfl
  | some n => cases h : onChain arena i j <;> simp [h]

theorem parentsDec_setNotSynced (arena : List RNode) (i : Nat) (hdec : ParentsDec arena) :
    ParentsDec (setNotSynced arena i) :=
  parentsDec_congr _ arena (setNotSynced_parentMap arena i hdec) hdec

theorem onChain_setNotSynced (arena : List RNode) (i : Nat) (hdec : ParentsDec arena)
    (j k : Nat) : onChain (setNotSynced arena i) j k = onChain arena j k :=
  onChainFuel_congr (j + 1) _ arena (setNotSynced_parentMap arena i hdec) j k

theorem markFold_getElem (localKeys : List String) (L : List (String × Nat))
    (arena : List RNode) (hdec : ParentsDec arena) (k : Nat) :
    (L.foldl
        (fun a kv => if localKeys.contains kv.1 then a else setNotSynced a kv.2)
        arena)[k]? =
      (arena[k]?).map fun n =>
        if L.any (fun kv => !(localKeys.contains kv.1) && onChain arena kv.2 k) then
          { n with synced := false }
        else n := by
  induction L generalizing arena with
  | nil =>
    simp only [List.foldl_nil, List.any_nil]
    cases arena[k]? <;> rfl
  | cons kv L ih =>
    simp only [List.foldl_cons, List.any_cons]
    by_cases hloc : localKeys.contains kv.1 = true
    · rw [if_pos hloc]
      rw [ih arena hdec]
      have hfalse : (!(localKeys.contains kv.1) && onChain arena kv.2 k) = false := by
        rw [hloc]
        rfl
      simp only [hfalse, Bool.false_or]
    · have hloc' : localKeys.contains kv.1 = false := Bool.eq_false_iff.mpr hloc
      rw [if_neg hloc]
      rw [ih (setNotSynced arena kv.2) (parentsDec_setNotSynced arena kv.2 hdec)]
      have hany : (L.any fun kv2 =>
          !(localKeys.contains kv2.1) && onChain (setNotSynced arena kv.2) kv2.2 k) =
          (L.any fun kv2 => !(localKeys.contains kv2.1) && onChain arena kv2.2 k) := by
        congr 1
        funext kv2
        rw [onChain_setNotSynced arena kv.2 hdec kv2.2 k]
      simp only [hany]
      rw [setNotSynced_getElem arena kv.2 hdec k]
      have hcond : (!(localKeys.contains kv.1) && onChain arena kv.2 k) =
          onChain arena kv.2 k := by
        rw [hloc']
        rw [Bool.not_false, Bool.true_and]
      simp only [hcond]
      cases arena[k]? with
      | none => rfl
      | some n =>
        cases h1 : onChain arena kv.2 k <;>
          cases h2 : L.any
            (fun kv2 => !(localKeys.contains kv2.1) && onChain arena kv2.2 k) <;>
          simp [h1, h2]

theorem addRemoteLine_arena (st : RTree) (line : String) :
    (addRemoteLine st line).arena =
      st.arena ++ [⟨line, goBase line, st.pmap.lookup (goDir line), true⟩] := rfl

theorem addRemoteLine_pmap (st : RTree) (line : String) :
    (addRemoteLine st line).pmap = (line, st.arena.length) :: st.pmap := rfl

theorem treeWF_addRemoteLine (st : RTree) (line : String) (h : TreeWF st) :
    TreeWF (addRemoteLine st line) := by
  obtain ⟨hdec, hbound, hpath, hsync⟩ := h
  refine ⟨?_, ?_, ?_, ?_⟩
  · intro i n hi p hp
    rw [addRemoteLine_arena] at hi
    by_cases hilen : i < st.arena.length
    · rw [List.getElem?_append_left hilen] at hi
      exact hdec i n hi p hp
    · have hlt : i < st.arena.length + 1 := by
        have := getElem?_some_lt _ i n hi
        simpa using this
      have hieq : i = st.arena.length := by omega
      subst hieq
      rw [List.getElem?_concat_length] at hi
      cases hi
      have hmem := lookup_mem st.pmap (goDir line) p hp
      exact hbound _ hmem
  · intro kv hkv
    rw [addRemoteLine_pmap] at hkv
    rw [addRemoteLine_arena, List.length_append]
    rcases List.mem_cons.mp hkv with hkv | hkv
    · subst hkv
      simp
    · have := hbound kv hkv
      simp only [List.length_singleton]
      omega
  · intro kv hkv
    rw [addRemoteLine_pmap] at hkv
    rw [addRemoteLine_arena]
    rcases List.mem_cons.mp hkv with hkv | hkv
    · subst hkv
      exact ⟨_, List.getElem?_concat_length _ _, rfl⟩
    · obtain ⟨n, hn, hnp⟩ := hpath kv hkv
      exact ⟨n, by rw [List.getElem?_append_left (hbound kv hkv)]; exact hn, hnp⟩
  · intro i n hi
    rw [addRemoteLine_arena] at hi
    by_cases hilen : i < st.arena.length
    · rw [List.getElem?_append_left hilen] at hi
      exact hsync i n hi
    · have hlt : i < st.arena.length + 1 := by
        have := getElem?_some_lt _ i n hi
        simpa using this
      have hieq : i = st.arena.length := by omega
      subst hieq
      rw [List.getElem?_concat_length] at hi
      cases hi
      rfl

theorem treeWF_foldl (lines : List String) (st : RTree) (h : TreeWF st) :
    TreeWF (lines.foldl addRemoteLine st) := by
  induction lines generalizing st with
  | nil => exact h
  | cons l ls ih => exact ih _ (treeWF_addRemoteLine st l h)

theorem buildPhase_wf (lines : List String) : TreeWF (buildPhase lines) := by
  apply treeWF_foldl
  refine ⟨?_, ?_, ?_, ?_⟩
  · intro i n hi
    simp at hi
  · intro kv hkv
    cases hkv
  · intro kv hkv
    cases hkv
  · intro i n hi
    simp at hi

theorem dedupKeysAux_subset (seen : List String) (l : List (String × Nat)) :
    ∀ kv ∈ dedupKeysAux seen l, kv ∈ l := by
  induction l generalizing seen with
  | nil => intro kv h; cases h
  | cons kv0 rest ih =>
    intro kv h
    simp only [dedupKeysAux] at h
    by_cases hs : seen.contains kv0.1 = true
    · rw [if_pos hs] at h
      exact List.mem_cons_of_mem _ (ih seen kv h)
    · rw [if_neg hs] at h
      rcases List.mem_cons.mp h with h | h
      · subst h
        exact List.mem_cons_self _ _
      · exact List.mem_cons_of_mem _ (ih _ kv h)

/-- C2 (amended): with a parent-before-child listing stream, a node of
the finished remote tree is `synced = false` exactly when some live map
entry whose path is absent from the local map has that node on its
ancestor chain — i.e. every remote node missing locally is marked
unsynced together with its whole ancestor chain (second conjunct: each
entry is a node of the tree and lies on its own chain), and every other
node keeps its default `synced = true`. -/
theorem buildRemoteTree_ancestor_propagation (lines localKeys : List String)
    (hpbc : parentBeforeChild lines) :
    (∀ (k : Nat) (n : RNode),
      (buildRemoteTree lines localKeys).arena[k]? = some n →
      (n.synced = false ↔
        ∃ kv ∈ liveEntries (buildPhase lines).pmap,
          localKeys.contains kv.1 = false ∧
          onChain (buildPhase lines).arena kv.2 k = true))
    ∧ (∀ kv ∈ liveEntries (buildPhase lines).pmap,
      ∃ m : RNode, (buildPhase lines).arena[kv.2]? = some m ∧ m.path = kv.1 ∧
        onChain (buildPhase lines).arena kv.2 kv.2 = true) := by
  obtain ⟨hdec, hbound, hpath, hsync⟩ := buildPhase_wf lines
  constructor
  · intro k n hk
    have hm : (buildRemoteTree lines localKeys).arena[k]? =
        ((buildPhase lines).arena[k]?).map fun n0 =>
          if (liveEntries (buildPhase lines).pmap).any
              (fun kv => !(localKeys.contains kv.1) &&
                onChain (buildPhase lines).arena kv.2 k) then
            { n0 with synced := false }
          else n0 :=
      markFold_getElem localKeys (liveEntries (buildPhase lines).pmap)
        (buildPhase lines).arena hdec k
    rw [hk] at hm
    cases h0 : (buildPhase lines).arena[k]? with
    | none => rw [h0] at hm; cases hm
    | some n0 =>
      rw [h0] at hm
      have hn : n = if (liveEntries (buildPhase lines).pmap).any
          (fun kv => !(localKeys.contains kv.1) &&
            onChain (buildPhase lines).arena kv.2 k) then
          { n0 with synced := false } else n0 := Option.some.inj hm
      have hs0 : n0.synced = true := hsync k n0 h0
      constructor
      · intro hfalse
        by_cases hC : (liveEntries (buildPhase lines).pmap).any
            (fun kv => !(localKeys.contains kv.1) &&
              onChain (buildPhase lines).arena kv.2 k) = true
        · obtain ⟨kv, hkv, hkvc⟩ := List.any_eq_true.mp hC
          rcases Bool.and_eq_true .. |>.mp hkvc with ⟨hnot, hchain⟩
          refine ⟨kv, hkv, ?_, hchain⟩
          cases hcont : localKeys.contains kv.1 with
          | false => rfl
          | true =>
            rw [hcont] at hnot
            exact Bool.noConfusion hnot
        · exfalso
          rw [hn, if_neg hC] at hfalse
          rw [hs0] at hfalse
          exact Bool.noConfusion hfalse
      · rintro ⟨kv, hkv, hc1, hc2⟩
        have hC : (liveEntries (buildPhase lines).pmap).any
            (fun kv => !(localKeys.contains kv.1) &&
              onChain (buildPhase lines).arena kv.2 k) = true := by
          refine List.any_eq_true.mpr ⟨kv, hkv, ?_⟩
          rw [hc1, hc2]
          rfl
        rw [hn, if_pos hC]
  · intro kv hkv
    have hmem : kv ∈ (buildPhase lines).pmap := dedupKeysAux_subset [] _ kv hkv
    obtain ⟨m, hm, hmpath⟩ := hpath kv hmem
    refine ⟨m, hm, hmpath, ?_⟩
    rcases Option.eq_none_or_eq_some m.parent with hp | ⟨p, hp⟩
    · rw [onChain, onChainFuel_succ_noparent _ _ _ _ m hm hp]
      simp
    · rw [onChain, onChainFuel_succ_parent _ _ _ _ m p hm hp]
      simp

/-- C2 counterexample: on the claim's own example — remote stream
`/a`, `/a/b`, `/a/b/c` with local set `{/a, /a/b}` — the code marks `/a`
and `/a/b` unsynced as well, because `setNotSynced` propagates the
missing `/a/b/c` up the whole ancestor chain; the claim's example
asserts they stay synced. -/
theorem remote_example_ancestors_also_unsynced :
    syncedOf (buildRemoteTree ["/a", "/a/b", "/a/b/c"] ["/a", "/a/b"]) "/a" =
      some false
    ∧ syncedOf (buildRemoteTree ["/a", "/a/b", "/a/b/c"] ["/a", "/a/b"]) "/a/b" =
      some false
    ∧ syncedOf (buildRemoteTree ["/a", "/a/b", "/a/b/c"] ["/a", "/a/b"]) "/a/b/c" =
      some false := by
  decide

theorem buildRemoteTree_ancestor_propagation_witness :
    parentBeforeChild ["/a", "/a/b", "/a/b/c"]
    ∧ ((RNode.mk "/a" "a" none false).synced = false ↔
      ∃ kv ∈ liveEntries (buildPhase ["/a", "/a/b", "/a/b/c"]).pmap,
        (["/a", "/a/b"].contains kv.1) = false ∧
        onChain (buildPhase ["/a", "/a/b", "/a/b/c"]).arena kv.2 0 = true) :=
  ⟨by decide,
   (buildRemoteTree_ancestor_propagation ["/a", "/a/b", "/a/b/c"] ["/a", "/a/b"]
      (by decide)).1 0 (RNode.mk "/a" "a" none false) (by decide)⟩

theorem syncOp_eq (reg : List SyncJob) (path : String) :
    syncOp reg path =
      if reg.any (fun v => overlapsCheck v.path path) then (false, reg)
      else (true, reg ++ [newSyncJob path]) := rfl

theorem startRequest_eq (lines : List String) (reg : List SyncJob) (path : String) :
    startRequest lines reg path =
      if !(remotePathKnown lines path) then (.invalidPath, reg)
      else if reg.any (fun v => overlapsCheck v.path path) then (.conflict, reg)
      else (.ok, reg ++ [newSyncJob path]) := by
  unfold startRequest
  rw [syncOp_eq]
  by_cases h : reg.any (fun v => overlapsCheck v.path path) = true
  · simp only [if_pos h]
  · simp only [if_neg h]

/-- C4: the start handler builds a fresh remote tree with an empty local
map and answers `"invalid path"` exactly when the path is not among its
keys, leaving the registry unchanged; otherwise it answers
`"sync already started"` exactly when the locked overlap scan refuses,
again leaving the registry unchanged; otherwise it succeeds at once (the
transfer runs in the asynchronous supervisor task) and the registry
gains exactly the one new entry for the path. -/
theorem start_request_behavior (lines : List String) (reg : List SyncJob)
    (path : String) :
    (startRequest lines reg path = (.invalidPath, reg) ↔
      remotePathKnown lines path = false)
    ∧ (startRequest lines reg path = (.conflict, reg) ↔
      remotePathKnown lines path = true ∧
        ∃ v ∈ reg, overlapsCheck v.path path = true)
    ∧ (startRequest lines reg path = (.ok, reg ++ [newSyncJob path]) ↔
      remotePathKnown lines path = true ∧
        ∀ v ∈ reg, overlapsCheck v.path path = false) := by
  simp only [startRequest_eq]
  by_cases hknown : remotePathKnown lines path = true
  · by_cases hany : reg.any (fun v => overlapsCheck v.path path) = true
    · have hex : ∃ v ∈ reg, overlapsCheck v.path path = true := by
        simpa using List.any_eq_true.mp hany
      simp [hknown, hany, hex]
    · have hany' : reg.any (fun v => overlapsCheck v.path path) = false :=
        Bool.eq_false_iff.mpr hany
      have hall : ∀ v ∈ reg, overlapsCheck v.path path = false := by
        intro v hv
        simpa using List.any_eq_false.mp hany' v hv
      have hnex : ¬ ∃ v ∈ reg, overlapsCheck v.path path = true := by
        rintro ⟨v, hv, hov⟩
        exact absurd (hall v hv) (by simp [hov])
      simp [hknown, hany', hnex] <;> exact hall
  · have hknown' : remotePathKnown lines path = false := Bool.eq_false_iff.mpr hknown
    simp [hknown']
